import Mathlib

/-!
Verification of the PyPoE wiki lua exporter
(`PyPoE/cli/exporter/wiki/parsers/lua.py`).

The development shallowly embeds the record-projection, merge,
post-processing, sorting and serialization logic of that module:

* `PValue` models the Python values flowing through the exporter
  (ints, floats, strings, sequences, `None`).  Floats are carried by
  their printed decimal representation, since the exporter only ever
  formats them with `%s` and never computes with them.
* `Rec` models an `OrderedDict` as an association list in insertion
  order; `odInsert` is dict assignment, `odUpdate` is `dict.update`.
* `projectRow` / `copy_from_keys` embed `GenericLuaParser._copy_from_keys`.
* `lua_entry` / `lua_formatter` embed the `lua_formatter` function;
  code paths that would raise in Python (formatting `None` as a scalar)
  return `none`.
* `sortBy` is a stable insertion sort by a key function, modelling
  Python's stable `list.sort(key=...)`; `write_lua_sort` embeds the
  three successive sorts in `QuestRewardReader._write_lua`.
* `mergeStepVendor` / `mergeStepQuest` embed the identity-key merge
  steps of `read_vendor_rewards` and `read_quest_rewards`, and
  `vendor_post_record` the classes post-processing pass; Python
  exceptions (`KeyError` / `TypeError`) are modelled as `none`.
* `vendorStep` / `vendorLoop` embed the row loop of
  `read_vendor_rewards`, with `warnings.warn` modelled as appending a
  `VendorWarning` value to an accumulating list.
-/

namespace PyPoELua

/-- Python values flowing through the exporter.  A float is carried by
its printed representation (the code only formats floats, never
computes with them); `vList` models list, tuple and set values. -/
inductive PValue where
  | vNone : PValue
  | vInt (n : Int) : PValue
  | vFloat (r : String) : PValue
  | vStr (s : String) : PValue
  | vList (l : List PValue) : PValue

/-- An `OrderedDict` with string keys: an association list kept in
insertion order, later writes to an existing key replacing the value
in place. -/
abbrev AList (α : Type) : Type := List (String × α)

/-- A projected output record (an `OrderedDict` of field name to value). -/
abbrev Rec : Type := AList PValue

/-- A source row, modelled as a total map from field names to values;
a field the repository cannot resolve is `vNone`. -/
abbrev Row : Type := String → PValue

/-- Dictionary lookup `d[k]` returning `none` when the key is absent. -/
def lookupA {α : Type} : AList α → String → Option α
  | [], _ => none
  | (k', v) :: r, k => if k' = k then some v else lookupA r k

/-- Dictionary assignment `d[k] = v`: replace in place if the key is
present, otherwise append at the end (Python insertion order). -/
def odInsert {α : Type} : AList α → String → α → AList α
  | [], k, v => [(k, v)]
  | (k', v') :: r, k, v =>
      if k' = k then (k, v) :: r else (k', v') :: odInsert r k v

/-- Python `d.update(cr)`: assign every key of `cr` into `d`, in order. -/
def odUpdate {α : Type} (d : AList α) (cr : AList α) : AList α :=
  cr.foldl (fun d kv => odInsert d kv.1 kv.2) d

/-- Python `del d[k]`: drop the key, keeping the order of the rest. -/
def removeA {α : Type} : AList α → String → AList α
  | [], _ => []
  | (k', v) :: r, k => if k' = k then r else (k', v) :: removeA r k

/-- The target descriptor of a field spec: the output key and the
optional value transform (`copy_data` in the source). -/
structure CopyData where
  key : String
  value : Option (PValue → PValue) := none

/-- One field spec `(source field name, copy data)`. -/
abbrev FieldSpec : Type := String × CopyData

/-- The skip test of `_copy_from_keys`: a value is copied only when it
is not `None` and not equal to the empty string (in Python only a
`str` can compare equal to `""`). -/
def isSkipped : PValue → Bool
  | .vNone => true
  | .vStr s => s == ""
  | _ => false

/-- Apply the declared transform when there is one (`copy_data['value']`),
identity otherwise. -/
def applyTransform (cd : CopyData) (v : PValue) : PValue :=
  match cd.value with
  | some f => f v
  | none => v

/-- The `copyrow` construction loop of `_copy_from_keys`: iterate the
field specs in order, skipping `None` and empty-string source values,
and assign the (possibly transformed) value under the output key. -/
def projectRowAux (row : Row) (acc : Rec) : List FieldSpec → Rec
  | [] => acc
  | (k, cd) :: rest =>
      let v := row k
      projectRowAux row
        (if isSkipped v then acc else odInsert acc cd.key (applyTransform cd v))
        rest

/-- The record projected from one source row by a field-spec list. -/
def projectRow (row : Row) (keys : List FieldSpec) : Rec :=
  projectRowAux row [] keys

/-- Embedding of `GenericLuaParser._copy_from_keys`: build `copyrow`,
then either update the record at `index` (appending when the index is
out of range, the `IndexError` branch) or append when no index is
given. -/
def copy_from_keys (row : Row) (keys : List FieldSpec) (out_data : List Rec)
    (index : Option Nat) : List Rec :=
  let copyrow := projectRow row keys
  match index with
  | some i =>
      if h : i < out_data.length then
        out_data.set i (odUpdate (out_data.get ⟨i, h⟩) copyrow)
      else
        out_data ++ [copyrow]
  | none => out_data ++ [copyrow]

mutual

/-- Python `str()` (and, with the flag set, the `repr()` used for
elements of a printed list).  String quoting inside nested lists is
simplified to plain single quotes; the exporter only ever serializes
flat scalars and flat lists, so nested reprs never reach the output. -/
def pyShow : Bool → PValue → String
  | _, .vNone => "None"
  | _, .vInt n => toString n
  | _, .vFloat r => r
  | isRepr, .vStr s => if isRepr then "'" ++ s ++ "'" else s
  | _, .vList l => "[" ++ String.intercalate ", " (pyShowList l) ++ "]"

/-- Elementwise `repr()` of the members of a printed list. -/
def pyShowList : List PValue → List String
  | [] => []
  | v :: vs => pyShow true v :: pyShowList vs

end

/-- Python `str(v)`. -/
def pyStr (v : PValue) : String := pyShow false v

/-- Python `s.replace(a, b)` for the one-character pattern `"` at the
character level: every double quote becomes backslash-quote, nothing
else changes. -/
def replace_quotes : List Char → List Char
  | [] => []
  | c :: cs =>
      if c = '"' then '\\' :: '"' :: replace_quotes cs
      else c :: replace_quotes cs

/-- Python `value.replace(chr(34), chr(92) ++ chr(34))` on a string. -/
def escape_quotes (s : String) : String := String.mk (replace_quotes s.data)

/-- One element of an inline list in `lua_formatter`: `'%s'` for an
`int` instance, `'"%s"'` for everything else (floats included). -/
def lua_list_elem : PValue → String
  | .vInt n => toString n
  | v => "\"" ++ pyStr v ++ "\""

/-- One `key=value` line of a record block in `lua_formatter`.  The
final branch is Python's `value.replace('"', '\\"')`, which raises on
a `None` value; that crash is modelled as `none`. -/
def lua_entry (key : String) : PValue → Option String
  | .vInt n => some ("\t\t" ++ key ++ "=" ++ toString n ++ ",\n")
  | .vFloat r => some ("\t\t" ++ key ++ "=" ++ r ++ ",\n")
  | .vList l =>
      some ("\t\t" ++ key ++ "=\x7b"
        ++ String.intercalate ", " (l.map lua_list_elem) ++ "\x7d,\n")
  | .vStr s => some ("\t\t" ++ key ++ "=\"" ++ escape_quotes s ++ "\",\n")
  | .vNone => none

/-- Sequencing of a fallible map over a list: the first failure (a
Python exception) aborts. -/
def optionMapList {γ δ : Type} (f : γ → Option δ) : List γ → Option (List δ)
  | [] => some []
  | x :: xs => do
      let y ← f x
      let ys ← optionMapList f xs
      return y :: ys

/-- One record block of `lua_formatter`: a line per key in record
iteration order between the block markers. -/
def lua_record (data : Rec) : Option String := do
  let entries ← optionMapList (fun kv => lua_entry kv.1 kv.2) data
  return "\t\x7b\n" ++ String.join entries ++ "\t\x7d,\n"

/-- Embedding of `lua_formatter`: the surrounding table literal with
one block per record. -/
def lua_formatter (outdata : List Rec) : Option String := do
  let blocks ← optionMapList lua_record outdata
  return "local data = \x7b\n" ++ String.join blocks ++ "\n\x7d\nreturn data"

/-- Python `<` on integers, as a computable comparison. -/
def intLt (a b : Int) : Bool := decide (a < b)

/-- Python `<` on strings: lexicographic comparison of the code-point
sequences. -/
def charsLt : List Char → List Char → Bool
  | [], [] => false
  | [], _ :: _ => true
  | _ :: _, [] => false
  | a :: as, b :: bs =>
      if a.toNat < b.toNat then true
      else if b.toNat < a.toNat then false
      else charsLt as bs

/-- Python `<` on strings, applied to the underlying character lists. -/
def strLt (s t : String) : Bool := charsLt s.data t.data

/-- Stable insertion of `x` into a list already sorted by the key `f`:
`x` goes before the first element whose key is not strictly smaller,
so earlier input elements stay before later ones with an equal key. -/
def ordIns {β α : Type} (lt : α → α → Bool) (f : β → α) (x : β) :
    List β → List β
  | [] => [x]
  | y :: ys => if lt (f y) (f x) then y :: ordIns lt f x ys else x :: y :: ys

/-- Stable sort by a key function, modelling Python's stable
`list.sort(key=f)` with the comparison `lt`. -/
def sortBy {β α : Type} (lt : α → α → Bool) (f : β → α) : List β → List β
  | [] => []
  | x :: xs => ordIns lt f x (sortBy lt f xs)

/-- Sort key `lambda x: x['act']`; the default is irrelevant under the
well-typedness hypothesis used in the theorems. -/
def keyAct (r : Rec) : Int :=
  match lookupA r "act" with
  | some (.vInt n) => n
  | _ => 0

/-- Sort key `lambda x: x['quest_id']`. -/
def keyQuestId (r : Rec) : String :=
  match lookupA r "quest_id" with
  | some (.vStr s) => s
  | _ => ""

/-- Sort key `lambda x: x['reward']`. -/
def keyReward (r : Rec) : String :=
  match lookupA r "reward" with
  | some (.vStr s) => s
  | _ => ""

/-- The three successive stable sorts of `QuestRewardReader._write_lua`:
by `reward`, then by `quest_id`, then by `act`. -/
def write_lua_sort (outdata : List Rec) : List Rec :=
  sortBy intLt keyAct (sortBy strLt keyQuestId (sortBy strLt keyReward outdata))

/-- A record carries the three sort fields with the types the quest
and vendor readers produce: an integer act and string quest id and
reward. -/
def SortWellTyped (r : Rec) : Prop :=
  (∃ n, lookupA r "act" = some (.vInt n))
    ∧ (∃ s, lookupA r "quest_id" = some (.vStr s))
    ∧ (∃ s, lookupA r "reward" = some (.vStr s))

/-- The lexicographic order on the triple (act, quest id, reward). -/
def lexLE (x y : Rec) : Prop :=
  intLt (keyAct x) (keyAct y) = true
    ∨ (keyAct x = keyAct y
        ∧ (strLt (keyQuestId x) (keyQuestId y) = true
            ∨ (keyQuestId x = keyQuestId y
                ∧ strLt (keyReward y) (keyReward x) = false)))

/-- The full sort key triple of a record. -/
def keyTriple (r : Rec) : Int × String × String :=
  (keyAct r, keyQuestId r, keyReward r)

/-- The reserved unit separator `'\u001F'` used to pack several
contributions into one accumulator field. -/
def UNIT_SEP : String := "\u001F"

/-- The unit separator as a character (the separator string has length
one, so Python's `str.split` on it is a character split). -/
def UNIT_SEP_CHAR : Char := '\u001F'

/-- Python `s.split(sep)` for a one-character separator, on the
character list: splitting the empty text yields one empty group, and
every separator occurrence starts a new group. -/
def splitChars (sep : Char) : List Char → List (List Char)
  | [] => [[]]
  | c :: rest =>
      match splitChars sep rest with
      | [] => [[]]
      | g :: gs => if c = sep then [] :: g :: gs else (c :: g) :: gs

/-- Python `s.split(sep)` for the one-character separator string. -/
def py_split (s : String) (sep : Char) : List String :=
  (splitChars sep s.data).map (fun g => String.mk g)

/-- Embedding of the merge step of `read_vendor_rewards`: the first
record for a key is stored (dict assignment); a later record with the
same key appends the separator and its `classes` value onto the
representative's `classes` field when `'classes' in data`.  The
Python `KeyError` (representative without a `classes` field) and
`TypeError` (non-string concatenation) are modelled as `none`. -/
def mergeStepVendor (compress : AList Rec) (key : String) (data : Rec) :
    Option (AList Rec) :=
  match lookupA compress key with
  | some rep =>
      match lookupA data "classes" with
      | none => some compress
      | some (.vStr s) =>
          match lookupA rep "classes" with
          | some (.vStr t) =>
              some (odInsert compress key
                (odInsert rep "classes" (.vStr (t ++ UNIT_SEP ++ s))))
          | _ => none
      | some _ => none
  | none => some (odInsert compress key data)

/-- Embedding of the merge step of `read_quest_rewards`: a later record
for an existing key unconditionally runs
`compress[key]['classes'] += UNIT_SEP + character['Name']`, which
raises when the row has no linked character (`character` is `None`) or
when the representative has no string `classes` value; the raises are
modelled as `none`. -/
def mergeStepQuest (compress : AList Rec) (key : String) (data : Rec)
    (characterName : Option String) : Option (AList Rec) :=
  match lookupA compress key with
  | some rep =>
      match characterName with
      | some nm =>
          match lookupA rep "classes" with
          | some (.vStr t) =>
              some (odInsert compress key
                (odInsert rep "classes" (.vStr (t ++ UNIT_SEP ++ nm))))
          | _ => none
      | none => none
  | none => some (odInsert compress key data)

/-- Embedding of the `classes` post-processing of
`read_vendor_rewards`: split the accumulated value on the separator,
take the set of contributions, drop the field when every name of the
known class universe occurs in it (`classes_set.difference(classes)`
empty), and otherwise rewrite it as the sorted, separator-joined set.
A non-string `classes` value (where Python's `.split` would raise) is
modelled as `none`. -/
def vendor_post_record (classes_set : List String) (v : Rec) : Option Rec :=
  match lookupA v "classes" with
  | none => some v
  | some (.vStr s) =>
      let classes := (py_split s UNIT_SEP_CHAR).dedup
      if classes_set.all (fun c => classes.contains c) then
        some (removeA v "classes")
      else
        some (odInsert v "classes"
          (.vStr (String.intercalate UNIT_SEP (sortBy strLt id classes))))
  | some _ => none

/-- The whole post-processing pass: every merged record is rewritten in
place. -/
def vendor_post (classes_set : List String) (compress : AList Rec) :
    Option (AList Rec) :=
  optionMapList (fun kv => (vendor_post_record classes_set kv.2).map ((kv.1, ·))) compress

/-- A base item row as seen by `read_vendor_rewards` (its `Id` and
`Name` fields). -/
structure VItem where
  id : String
  name : String

/-- A quest row as seen by `read_vendor_rewards` (`Id`, `Name`, `Act`). -/
structure VQuest where
  id : String
  name : String
  act : Int

/-- One row of `QuestVendorRewards.dat` with its references resolved:
the row id, the `QuestState` value, the linked NPC's name, the linked
base items and the names of the linked character classes. -/
structure VendorRow where
  rowid : Nat
  questState : Int
  npcName : String
  items : List VItem
  characters : List String

/-- One row of `QuestStates.dat`: its list of quest-state values and
its linked quest. -/
structure QuestStateRow where
  states : List Int
  quest : VQuest

/-- The data of a `warnings.warn` call in `read_vendor_rewards`,
modelled as the values interpolated into the message. -/
inductive VendorWarning where
  | noQuest (rowid : Nat) (state : Int) (npc : String) (itemNames : List String)
  | noItems (rowid : Nat)

/-- The quest list computed for one vendor-reward row: every quest of a
`QuestStates.dat` row whose state list contains the row's quest state,
with the hardcoded state-385 fallback quest when that search finds
nothing. -/
def vendorQuests (qstates : List QuestStateRow) (fallback : VQuest)
    (state : Int) : List VQuest :=
  let qs := (qstates.filter (fun r => r.states.contains state)).map (·.quest)
  if qs.isEmpty ∧ state = 385 then [fallback] else qs

/-- The `data` record built for one (quest, item) pair of a
vendor-reward row. -/
def mkVendorData (q : VQuest) (i : VItem) (row : VendorRow) : Rec :=
  [("quest", .vStr q.name), ("quest_id", .vStr q.id), ("act", .vInt q.act),
   ("reward", .vStr i.name), ("npc", .vStr row.npcName)]
    ++ (if row.characters.isEmpty then []
        else [("classes", .vStr (String.intercalate UNIT_SEP row.characters))])

/-- The inner double loop of `read_vendor_rewards` over the (quest,
item) pairs of one row: merge each built record into `compress`,
propagating a raise. -/
def mergeAll (compress : AList Rec) : List (String × Rec) → Option (AList Rec)
  | [] => some compress
  | p :: ps =>
      match mergeStepVendor compress p.1 p.2 with
      | some c => mergeAll c ps
      | none => none

/-- The loop state of `read_vendor_rewards`: the `compress` mapping and
the warnings reported so far. -/
abbrev VendorState : Type := AList Rec × List VendorWarning

/-- Processing of a single `QuestVendorRewards.dat` row: warn and skip
when no quest is associated or when the item list is empty, otherwise
merge one record per (quest, item) pair into `compress`. -/
def vendorStep (qstates : List QuestStateRow) (fallback : VQuest)
    (st : VendorState) (row : VendorRow) : Option VendorState :=
  let quests := vendorQuests qstates fallback row.questState
  if quests.isEmpty then
    some (st.1, st.2 ++
      [.noQuest row.rowid row.questState row.npcName (row.items.map (·.name))])
  else if row.items.isEmpty then
    some (st.1, st.2 ++ [.noItems row.rowid])
  else do
    let c ← mergeAll st.1 (quests.flatMap (fun q =>
        row.items.map (fun i => (q.id ++ i.id, mkVendorData q i row))))
    return (c, st.2)

/-- The whole row loop of `read_vendor_rewards`. -/
def vendorLoop (qstates : List QuestStateRow) (fallback : VQuest) :
    List VendorRow → VendorState → Option VendorState
  | [], st => some st
  | row :: rows, st =>
      match vendorStep qstates fallback st row with
      | some st' => vendorLoop qstates fallback rows st'
      | none => none

/-- The key sequence of an ordered dictionary. -/
def keysOf {α : Type} (d : AList α) : List String := d.map Prod.fst

/-- An ordered dictionary has no repeated keys. -/
def NodupKeys {α : Type} (d : AList α) : Prop := (keysOf d).Nodup

/-- The output keys declared by a field-spec list. -/
def outKeys (keys : List FieldSpec) : List String :=
  keys.map (fun p => p.2.key)

theorem keysOf_nil {α : Type} : keysOf ([] : AList α) = [] := rfl

theorem keysOf_cons {α : Type} (p : String × α) (d : AList α) :
    keysOf (p :: d) = p.1 :: keysOf d := rfl

theorem lookupA_odInsert_self {α : Type} (d : AList α) (k : String) (v : α) :
    lookupA (odInsert d k v) k = some v := by
  induction d with
  | nil => simp [odInsert, lookupA]
  | cons hd tl ih =>
      obtain ⟨a, b⟩ := hd
      by_cases h : a = k
      · simp [odInsert, h, lookupA]
      · simp [odInsert, h, lookupA, ih]

theorem lookupA_odInsert_ne {α : Type} (d : AList α) {k k' : String} (v : α)
    (h : k' ≠ k) : lookupA (odInsert d k v) k' = lookupA d k' := by
  induction d with
  | nil => simp [odInsert, lookupA, Ne.symm h]
  | cons hd tl ih =>
      obtain ⟨a, b⟩ := hd
      by_cases hh : a = k
      · subst hh
        simp [odInsert, lookupA, Ne.symm h]
      · simp [odInsert, hh, lookupA, ih]

theorem lookupA_eq_none_iff {α : Type} (d : AList α) (k : String) :
    lookupA d k = none ↔ k ∉ keysOf d := by
  induction d with
  | nil => simp [lookupA, keysOf]
  | cons hd tl ih =>
      obtain ⟨a, b⟩ := hd
      by_cases h : a = k
      · simp [lookupA, h, keysOf_cons]
      · simp [lookupA, h, keysOf_cons, ih, Ne.symm h]

theorem odInsert_of_lookupA_none {α : Type} (d : AList α) (k : String) (v : α)
    (h : lookupA d k = none) : odInsert d k v = d ++ [(k, v)] := by
  induction d with
  | nil => simp [odInsert]
  | cons hd tl ih =>
      obtain ⟨a, b⟩ := hd
      by_cases hh : a = k
      · simp [lookupA, hh] at h
      · simp only [lookupA, if_neg hh] at h
        simp [odInsert, hh, ih h]

theorem mem_keysOf_odInsert {α : Type} (d : AList α) (k key : String) (v : α)
    (h : key ∈ keysOf (odInsert d k v)) : key = k ∨ key ∈ keysOf d := by
  induction d with
  | nil => simpa [odInsert, keysOf] using h
  | cons hd tl ih =>
      obtain ⟨a, b⟩ := hd
      by_cases hh : a = k
      · simp only [odInsert, if_pos hh, keysOf_cons, List.mem_cons] at h
        rcases h with h | h
        · exact Or.inl h
        · exact Or.inr (by simp [keysOf_cons, h])
      · simp only [odInsert, if_neg hh, keysOf_cons, List.mem_cons] at h
        rcases h with h | h
        · exact Or.inr (by simp [keysOf_cons, h])
        · rcases ih h with h | h
          · exact Or.inl h
          · exact Or.inr (by simp [keysOf_cons, h])

theorem keysOf_odInsert_of_mem {α : Type} (d : AList α) (k : String) (v : α)
    (h : k ∈ keysOf d) : keysOf (odInsert d k v) = keysOf d := by
  induction d with
  | nil => simp [keysOf] at h
  | cons hd tl ih =>
      obtain ⟨a, b⟩ := hd
      by_cases hh : a = k
      · simp [odInsert, hh, keysOf_cons]
      · have hmem : k ∈ keysOf tl := by
          simp only [keysOf_cons, List.mem_cons] at h
          exact h.resolve_left (fun hc => hh hc.symm)
        simp [odInsert, hh, keysOf_cons, ih hmem]

theorem nodupKeys_odInsert {α : Type} (d : AList α) (k : String) (v : α)
    (h : NodupKeys d) : NodupKeys (odInsert d k v) := by
  induction d with
  | nil => simp [odInsert, NodupKeys, keysOf]
  | cons hd tl ih =>
      obtain ⟨a, b⟩ := hd
      by_cases hh : a = k
      · subst hh
        simpa [odInsert, NodupKeys, keysOf_cons] using h
      · simp only [NodupKeys, keysOf_cons, List.nodup_cons] at h
        have h2 := ih h.2
        simp only [odInsert, if_neg hh, NodupKeys, keysOf_cons, List.nodup_cons]
        refine ⟨fun hc => ?_, h2⟩
        rcases mem_keysOf_odInsert tl k a v hc with hc | hc
        · exact hh hc
        · exact h.1 hc

theorem lookupA_odUpdate {α : Type} (d cr : AList α) (k : String)
    (hcr : NodupKeys cr) :
    lookupA (odUpdate d cr) k =
      match lookupA cr k with
      | some v => some v
      | none => lookupA d k := by
  induction cr generalizing d with
  | nil => simp [odUpdate, lookupA]
  | cons hd tl ih =>
      obtain ⟨a, b⟩ := hd
      simp only [NodupKeys, keysOf_cons, List.nodup_cons] at hcr
      have step : odUpdate d ((a, b) :: tl) = odUpdate (odInsert d a b) tl := by
        simp [odUpdate]
      rw [step, ih _ hcr.2]
      by_cases h : a = k
      · subst h
        have hnone : lookupA tl a = none := (lookupA_eq_none_iff tl a).mpr hcr.1
        simp [hnone, lookupA, lookupA_odInsert_self]
      · have heq : lookupA ((a, b) :: tl) k = lookupA tl k := by
          simp [lookupA, h]
        rw [heq]
        cases hc : lookupA tl k with
        | some v => simp
        | none => simp [lookupA_odInsert_ne d b (fun hh => h hh.symm)]

theorem lookupA_projectRowAux_not_mem (row : Row) (keys : List FieldSpec)
    (acc : Rec) (key : String) (h : key ∉ outKeys keys) :
    lookupA (projectRowAux row acc keys) key = lookupA acc key := by
  induction keys generalizing acc with
  | nil => rfl
  | cons hd tl ih =>
      obtain ⟨k, cd⟩ := hd
      simp only [outKeys, List.map_cons, List.mem_cons, not_or] at h
      simp only [projectRowAux]
      by_cases hs : isSkipped (row k) = true
      · rw [if_pos hs]
        exact ih acc (by simpa [outKeys] using h.2)
      · rw [if_neg hs]
        rw [ih _ (by simpa [outKeys] using h.2)]
        exact lookupA_odInsert_ne acc _ h.1

theorem mem_outKeys_of_mem {keys : List FieldSpec} {k : String} {cd : CopyData}
    (h : (k, cd) ∈ keys) : cd.key ∈ outKeys keys := by
  simp only [outKeys, List.mem_map]
  exact ⟨(k, cd), h, rfl⟩

theorem lookupA_projectRowAux_mem (row : Row) (keys : List FieldSpec)
    (acc : Rec) (k : String) (cd : CopyData)
    (hnd : (outKeys keys).Nodup) (hmem : (k, cd) ∈ keys)
    (hacc : cd.key ∉ keysOf acc) :
    lookupA (projectRowAux row acc keys) cd.key =
      (if isSkipped (row k) then none
       else some (applyTransform cd (row k))) := by
  induction keys generalizing acc with
  | nil => cases hmem
  | cons hd tl ih =>
      obtain ⟨k₀, cd₀⟩ := hd
      simp only [outKeys, List.map_cons, List.nodup_cons] at hnd
      rcases List.mem_cons.mp hmem with heq | hmem'
      · injection heq with h1 h2
        subst h1
        subst h2
        simp only [projectRowAux]
        by_cases hs : isSkipped (row k) = true
        · rw [if_pos hs, if_pos hs,
            lookupA_projectRowAux_not_mem row tl acc cd.key
              (by simpa [outKeys] using hnd.1)]
          exact (lookupA_eq_none_iff acc cd.key).mpr hacc
        · rw [if_neg hs, if_neg hs,
            lookupA_projectRowAux_not_mem row tl _ cd.key
              (by simpa [outKeys] using hnd.1)]
          exact lookupA_odInsert_self acc cd.key _
      · simp only [projectRowAux]
        by_cases hs : isSkipped (row k₀) = true
        · rw [if_pos hs]
          exact ih acc (by simpa [outKeys] using hnd.2) hmem' hacc
        · rw [if_neg hs]
          refine ih _ (by simpa [outKeys] using hnd.2) hmem' (fun hc => ?_)
          rcases mem_keysOf_odInsert acc cd₀.key cd.key _ hc with hc | hc
          · have hks : cd.key ∈ outKeys tl := mem_outKeys_of_mem hmem'
            rw [hc] at hks
            exact hnd.1 (by simpa [outKeys] using hks)
          · exact hacc hc

theorem lookupA_projectRow_not_mem (row : Row) (keys : List FieldSpec)
    (key : String) (h : key ∉ outKeys keys) :
    lookupA (projectRow row keys) key = none :=
  lookupA_projectRowAux_not_mem row keys [] key h

theorem nodupKeys_projectRowAux (row : Row) (keys : List FieldSpec)
    (acc : Rec) (h : NodupKeys acc) :
    NodupKeys (projectRowAux row acc keys) := by
  induction keys generalizing acc with
  | nil => exact h
  | cons hd tl ih =>
      obtain ⟨k, cd⟩ := hd
      simp only [projectRowAux]
      by_cases hs : isSkipped (row k) = true
      · rw [if_pos hs]
        exact ih acc h
      · rw [if_neg hs]
        exact ih _ (nodupKeys_odInsert acc cd.key _ h)

theorem nodupKeys_projectRow (row : Row) (keys : List FieldSpec) :
    NodupKeys (projectRow row keys) :=
  nodupKeys_projectRowAux row keys [] (by simp [NodupKeys, keysOf])

/-- The three properties of a strict linear comparison the sort proofs
use: irreflexivity, transitivity and connexity. -/
structure IsStrictLinear {α : Type} (lt : α → α → Bool) : Prop where
  irrefl : ∀ a, lt a a = false
  lt_trans : ∀ a b c, lt a b = true → lt b c = true → lt a c = true
  conn : ∀ a b, lt a b = false → lt b a = false → a = b

theorem IsStrictLinear.asym {α : Type} {lt : α → α → Bool}
    (hS : IsStrictLinear lt) {a b : α} (h : lt a b = true) : lt b a = false := by
  cases hc : lt b a with
  | false => rfl
  | true =>
      have := hS.lt_trans a b a h hc
      rw [hS.irrefl a] at this
      cases this

theorem perm_ordIns {β α : Type} (lt : α → α → Bool) (f : β → α) (x : β)
    (l : List β) : List.Perm (ordIns lt f x l) (x :: l) := by
  induction l with
  | nil => rfl
  | cons y ys ih =>
      by_cases h : lt (f y) (f x) = true
      · rw [ordIns, if_pos h]
        exact (ih.cons y).trans (List.Perm.swap x y ys)
      · rw [ordIns, if_neg h]

theorem perm_sortBy {β α : Type} (lt : α → α → Bool) (f : β → α)
    (l : List β) : List.Perm (sortBy lt f l) l := by
  induction l with
  | nil => rfl
  | cons x xs ih => exact (perm_ordIns lt f x (sortBy lt f xs)).trans (ih.cons x)

theorem mem_ordIns {β α : Type} {lt : α → α → Bool} {f : β → α} {x z : β}
    {l : List β} (h : z ∈ ordIns lt f x l) : z = x ∨ z ∈ l := by
  have := (perm_ordIns lt f x l).subset h
  simpa using this

/-- The relation a stable sort by the key `f` establishes on a list
that already satisfies `R` pairwise: strictly smaller key, or equal
key and the pre-existing relation. -/
def lexR {β α : Type} (lt : α → α → Bool) (f : β → α) (R : β → β → Prop)
    (x y : β) : Prop :=
  lt (f x) (f y) = true ∨ (f x = f y ∧ R x y)

theorem pairwise_ordIns {β α : Type} {lt : α → α → Bool} {f : β → α}
    (hS : IsStrictLinear lt) {R : β → β → Prop} {l : List β} {x : β}
    (hp : List.Pairwise (lexR lt f R) l) (hx : ∀ z ∈ l, R x z) :
    List.Pairwise (lexR lt f R) (ordIns lt f x l) := by
  induction l with
  | nil => simp [ordIns]
  | cons y ys ih =>
      rw [List.pairwise_cons] at hp
      by_cases hlt : lt (f y) (f x) = true
      · rw [ordIns, if_pos hlt, List.pairwise_cons]
        constructor
        · intro z hz
          rcases mem_ordIns hz with rfl | hz
          · exact Or.inl hlt
          · exact hp.1 z hz
        · exact ih hp.2 (fun z hz => hx z (List.mem_cons_of_mem y hz))
      · rw [ordIns, if_neg hlt, List.pairwise_cons]
        refine ⟨?_, List.pairwise_cons.mpr hp⟩
        intro z hz
        rcases List.mem_cons.mp hz with rfl | hz
        · by_cases hxz : lt (f x) (f z) = true
          · exact Or.inl hxz
          · exact Or.inr ⟨hS.conn _ _ (by simpa using hxz) (by simpa using hlt),
              hx z (List.mem_cons_self z ys)⟩
        · have hyz := hp.1 z hz
          have hRxz := hx z (List.mem_cons_of_mem y hz)
          rcases hyz with hyz | ⟨hyz, _⟩
          · have hzx : lt (f z) (f x) = false := by
              cases hc : lt (f z) (f x) with
              | false => rfl
              | true =>
                  have := hS.lt_trans (f y) (f z) (f x) hyz hc
                  rw [this] at hlt
                  exact absurd rfl hlt
            by_cases hxz : lt (f x) (f z) = true
            · exact Or.inl hxz
            · exact Or.inr ⟨hS.conn _ _ (by simpa using hxz) hzx, hRxz⟩
          · have hzx : lt (f z) (f x) = false := by
              rw [← hyz]
              simpa using hlt
            by_cases hxz : lt (f x) (f z) = true
            · exact Or.inl hxz
            · exact Or.inr ⟨hS.conn _ _ (by simpa using hxz) hzx, hRxz⟩

theorem pairwise_sortBy {β α : Type} (lt : α → α → Bool) (f : β → α)
    (hS : IsStrictLinear lt) {R : β → β → Prop} {l : List β}
    (hp : List.Pairwise R l) :
    List.Pairwise (lexR lt f R) (sortBy lt f l) := by
  induction l with
  | nil => simp [sortBy]
  | cons x xs ih =>
      rw [List.pairwise_cons] at hp
      exact pairwise_ordIns hS (ih hp.2)
        (fun z hz => hp.1 z ((perm_sortBy lt f xs).subset hz))

theorem filter_ordIns_neg {β α : Type} (lt : α → α → Bool) (f : β → α)
    (p : β → Bool) {x : β} (hpx : p x = false) (l : List β) :
    (ordIns lt f x l).filter p = l.filter p := by
  induction l with
  | nil => simp [ordIns, hpx]
  | cons y ys ih =>
      by_cases hlt : lt (f y) (f x) = true
      · rw [ordIns, if_pos hlt]
        cases hpy : p y <;> simp [List.filter_cons, hpy, ih]
      · rw [ordIns, if_neg hlt]
        simp [List.filter_cons, hpx]

theorem filter_ordIns_pos {β α : Type} {lt : α → α → Bool} {f : β → α}
    (hS : IsStrictLinear lt) (p : β → Bool) (c : α)
    (hp : ∀ z, p z = true → f z = c) {x : β} (hpx : p x = true)
    (l : List β) : (ordIns lt f x l).filter p = x :: l.filter p := by
  induction l with
  | nil => simp [ordIns, hpx]
  | cons y ys ih =>
      by_cases hlt : lt (f y) (f x) = true
      · rw [ordIns, if_pos hlt]
        have hpy : p y = false := by
          cases hpy : p y with
          | false => rfl
          | true =>
              rw [hp y hpy, hp x hpx, hS.irrefl c] at hlt
              cases hlt
        simp [List.filter_cons, hpy, ih]
      · rw [ordIns, if_neg hlt]
        simp [List.filter_cons, hpx]

theorem filter_sortBy {β α : Type} {lt : α → α → Bool} {f : β → α}
    (hS : IsStrictLinear lt) (p : β → Bool) (c : α)
    (hp : ∀ z, p z = true → f z = c) (l : List β) :
    (sortBy lt f l).filter p = l.filter p := by
  induction l with
  | nil => rfl
  | cons x xs ih =>
      rw [sortBy]
      cases hpx : p x with
      | false =>
          rw [filter_ordIns_neg lt f p hpx, ih]
          simp [List.filter_cons, hpx]
      | true =>
          rw [filter_ordIns_pos hS p c hp hpx, ih]
          simp [List.filter_cons, hpx]

theorem intLt_isStrictLinear : IsStrictLinear intLt := by
  constructor
  · intro a
    simp [intLt]
  · intro a b c h1 h2
    simp only [intLt, decide_eq_true_eq] at h1 h2 ⊢
    omega
  · intro a b h1 h2
    simp only [intLt, decide_eq_false_iff_not] at h1 h2
    omega

theorem charsLt_irrefl (cs : List Char) : charsLt cs cs = false := by
  induction cs with
  | nil => rfl
  | cons a as ih => simp [charsLt, Nat.lt_irrefl, ih]

theorem charsLt_trans (as : List Char) : ∀ bs cs, charsLt as bs = true →
    charsLt bs cs = true → charsLt as cs = true := by
  induction as with
  | nil =>
      intro bs cs h1 h2
      cases bs with
      | nil => simp [charsLt] at h1
      | cons b bs =>
          cases cs with
          | nil => simp [charsLt] at h2
          | cons c cs => simp [charsLt]
  | cons a as ih =>
      intro bs cs h1 h2
      cases bs with
      | nil => simp [charsLt] at h1
      | cons b bs =>
          cases cs with
          | nil => simp [charsLt] at h2
          | cons c cs =>
              simp only [charsLt] at h1 h2 ⊢
              by_cases hab : a.toNat < b.toNat
              · by_cases hbc : b.toNat < c.toNat
                · simp [Nat.lt_trans hab hbc]
                · by_cases hcb : c.toNat < b.toNat
                  · rw [if_neg hbc, if_pos hcb] at h2
                    cases h2
                  · have hac : a.toNat < c.toNat := by omega
                    simp [hac]
              · by_cases hba : b.toNat < a.toNat
                · rw [if_neg hab, if_pos hba] at h1
                  cases h1
                · rw [if_neg hab, if_neg hba] at h1
                  by_cases hbc : b.toNat < c.toNat
                  · have hac : a.toNat < c.toNat := by omega
                    simp [hac]
                  · by_cases hcb : c.toNat < b.toNat
                    · rw [if_neg hbc, if_pos hcb] at h2
                      cases h2
                    · rw [if_neg hbc, if_neg hcb] at h2
                      have h3 : ¬ a.toNat < c.toNat := by omega
                      have h4 : ¬ c.toNat < a.toNat := by omega
                      rw [if_neg h3, if_neg h4]
                      exact ih bs cs h1 h2

theorem charsLt_conn (as : List Char) : ∀ bs, charsLt as bs = false →
    charsLt bs as = false → as = bs := by
  induction as with
  | nil =>
      intro bs h1 _
      cases bs with
      | nil => rfl
      | cons b bs => simp [charsLt] at h1
  | cons a as ih =>
      intro bs h1 h2
      cases bs with
      | nil => simp [charsLt] at h2
      | cons b bs =>
          simp only [charsLt] at h1 h2
          by_cases hab : a.toNat < b.toNat
          · rw [if_pos hab] at h1
            cases h1
          · by_cases hba : b.toNat < a.toNat
            · rw [if_pos hba] at h2
              cases h2
            · rw [if_neg hab, if_neg hba] at h1
              rw [if_neg hba, if_neg hab] at h2
              have hn : a.toNat = b.toNat := by omega
              have hc : a = b := Char.ext (UInt32.ext hn)
              rw [hc, ih bs h1 h2]

theorem strLt_isStrictLinear : IsStrictLinear strLt := by
  constructor
  · intro a
    exact charsLt_irrefl a.data
  · intro a b c h1 h2
    exact charsLt_trans a.data b.data c.data h1 h2
  · intro a b h1 h2
    cases a with
    | mk da =>
        cases b with
        | mk db =>
            have := charsLt_conn da db h1 h2
            rw [this]


theorem isSkipped_iff (v : PValue) :
    isSkipped v = true ↔ (v = PValue.vNone ∨ v = PValue.vStr "") := by
  cases v <;> simp [isSkipped]

/-- Claim C2, counterexample: the claim quantifies over every field-spec
list, but when two field specs share an output key the skip of one spec
does not make the key absent.  Here the spec `("b", key "x")` reads the
`None` value `row "b"`, yet the produced record does contain the key
`"x"` (written by the spec `("a", key "x")`). -/
theorem C2_counterexample :
    (fun k => if k = "a" then PValue.vStr "v" else PValue.vNone) "b"
        = PValue.vNone
    ∧ lookupA
        (projectRow (fun k => if k = "a" then PValue.vStr "v" else PValue.vNone)
          [("a", ⟨"x", none⟩), ("b", ⟨"x", none⟩)]) "x"
        = some (PValue.vStr "v") :=
  ⟨rfl, rfl⟩

/-- Claim C2 (amended): provided the field-spec list declares pairwise
distinct output keys, a spec whose source value is `None` or the empty
string contributes no entry at its output key, and otherwise the
output record binds the spec's output key to the transformed value
(the value itself when no transform is declared). -/
theorem C2_projection_skip_and_copy (row : Row) (keys : List FieldSpec)
    (k : String) (cd : CopyData) (hnd : (outKeys keys).Nodup)
    (hmem : (k, cd) ∈ keys) :
    ((row k = PValue.vNone ∨ row k = PValue.vStr "") →
        lookupA (projectRow row keys) cd.key = none)
    ∧ (row k ≠ PValue.vNone → row k ≠ PValue.vStr "" →
        lookupA (projectRow row keys) cd.key
          = some (applyTransform cd (row k))) := by
  have hmain := lookupA_projectRowAux_mem row keys [] k cd hnd hmem
    (by simp [keysOf])
  constructor
  · intro h
    rw [projectRow] at *
    rw [hmain, if_pos ((isSkipped_iff (row k)).mpr h)]
  · intro h1 h2
    have hs : isSkipped (row k) = false := by
      cases hs : isSkipped (row k) with
      | false => rfl
      | true =>
          rcases (isSkipped_iff (row k)).mp hs with h | h
          · exact absurd h h1
          · exact absurd h h2
    rw [projectRow] at *
    rw [hmain, if_neg (by simp [hs])]

/-- Claim C2 (amended), witness: a concrete non-skipped projection. -/
theorem C2_projection_skip_and_copy_witness :
    lookupA (projectRow (fun _ => PValue.vStr "v") [("a", ⟨"x", none⟩)]) "x"
      = some (applyTransform ⟨"x", none⟩ (PValue.vStr "v")) :=
  (C2_projection_skip_and_copy (fun _ => PValue.vStr "v") [("a", ⟨"x", none⟩)]
      "a" ⟨"x", none⟩ (by simp [outKeys]) (by simp)).2
    (by simp) (by simp)

/-- Claim C9: a call of `_copy_from_keys` without a positional index
appends exactly one record, the projected record, leaving every
previously present record (hence all of their fields) unchanged. -/
theorem C9_append_without_index (row : Row) (keys : List FieldSpec)
    (out_data : List Rec) :
    (copy_from_keys row keys out_data none).length = out_data.length + 1
    ∧ (copy_from_keys row keys out_data none).take out_data.length = out_data
    ∧ (copy_from_keys row keys out_data none).drop out_data.length
        = [projectRow row keys] := by
  refine ⟨?_, ?_, ?_⟩
  · simp [copy_from_keys]
  · simp [copy_from_keys, List.take_left]
  · simp [copy_from_keys, List.drop_left]

/-- Claim C5: `_copy_from_keys` with a positional index beyond the
output length appends the projected record instead of raising; with an
index in range it merges the projected fields into the record at that
index, overwriting on key collision, leaving all other records and all
fields not targeted by the spec list unchanged. -/
theorem C5_positional_update (row : Row) (keys : List FieldSpec)
    (out_data : List Rec) (i : Nat) :
    (out_data.length ≤ i →
        copy_from_keys row keys out_data (some i)
          = out_data ++ [projectRow row keys])
    ∧ (∀ h : i < out_data.length,
        (copy_from_keys row keys out_data (some i)).length = out_data.length
        ∧ (∀ j, i ≠ j →
            (copy_from_keys row keys out_data (some i))[j]? = out_data[j]?)
        ∧ (copy_from_keys row keys out_data (some i))[i]?
            = some (odUpdate (out_data.get ⟨i, h⟩) (projectRow row keys))
        ∧ (∀ k, k ∉ outKeys keys →
            lookupA (odUpdate (out_data.get ⟨i, h⟩) (projectRow row keys)) k
              = lookupA (out_data.get ⟨i, h⟩) k)
        ∧ (∀ k v, lookupA (projectRow row keys) k = some v →
            lookupA (odUpdate (out_data.get ⟨i, h⟩) (projectRow row keys)) k
              = some v)) := by
  constructor
  · intro hle
    simp [copy_from_keys, Nat.not_lt.mpr hle]
  · intro h
    refine ⟨?_, ?_, ?_, ?_, ?_⟩
    · simp [copy_from_keys, h]
    · intro j hj
      simp only [copy_from_keys, dif_pos h]
      exact List.getElem?_set_ne hj
    · simp only [copy_from_keys, dif_pos h]
      simp [List.getElem?_set_self', h]
    · intro k hk
      rw [lookupA_odUpdate _ _ _ (nodupKeys_projectRow row keys),
        lookupA_projectRow_not_mem row keys k hk]
    · intro k v hv
      rw [lookupA_odUpdate _ _ _ (nodupKeys_projectRow row keys), hv]

/-- Claim C5, witness: the out-of-range index 5 appends to a
one-record output list, and the in-range index 0 keeps its length. -/
theorem C5_positional_update_witness :
    copy_from_keys (fun _ => PValue.vInt 2) [("s", ⟨"b", none⟩)]
        [[("a", PValue.vInt 1)]] (some 5)
      = [[("a", PValue.vInt 1)]]
          ++ [projectRow (fun _ => PValue.vInt 2) [("s", ⟨"b", none⟩)]]
    ∧ (copy_from_keys (fun _ => PValue.vInt 2) [("s", ⟨"b", none⟩)]
        [[("a", PValue.vInt 1)]] (some 0)).length = 1 :=
  ⟨(C5_positional_update (fun _ => PValue.vInt 2) [("s", ⟨"b", none⟩)]
      [[("a", PValue.vInt 1)]] 5).1 (by decide),
   ((C5_positional_update (fun _ => PValue.vInt 2) [("s", ⟨"b", none⟩)]
      [[("a", PValue.vInt 1)]] 0).2 (by decide)).1⟩

/-- Claim C10: an empty sequence value is not skipped by the projection
engine (only `None` and the empty string are), so the output record
contains the key and the serializer renders the entry as an empty
bracketed list. -/
theorem C10_empty_sequence_kept (row : Row) (k outk : String)
    (h : row k = PValue.vList []) :
    projectRow row [(k, ⟨outk, none⟩)] = [(outk, PValue.vList [])]
    ∧ lua_entry outk (PValue.vList [])
        = some ("\t\t" ++ outk ++ "=\x7b\x7d,\n") := by
  constructor
  · simp [projectRow, projectRowAux, h, isSkipped, odInsert, applyTransform]
  · apply congrArg some
    apply String.ext
    simp [lua_entry, String.data_append, List.append_assoc, String.intercalate]

/-- Claim C10, witness: a concrete row with an empty-list field. -/
theorem C10_empty_sequence_kept_witness :
    projectRow (fun _ => PValue.vList []) [("t", ⟨"tags", none⟩)]
        = [("tags", PValue.vList [])]
    ∧ lua_entry "tags" (PValue.vList [])
        = some ("\t\t" ++ "tags" ++ "=\x7b\x7d,\n") :=
  C10_empty_sequence_kept (fun _ => PValue.vList []) "t" "tags" rfl
theorem replace_quotes_append (a b : List Char) :
    replace_quotes (a ++ b) = replace_quotes a ++ replace_quotes b := by
  induction a with
  | nil => rfl
  | cons c cs ih =>
      by_cases h : c = '"' <;> simp [replace_quotes, h, ih]

theorem replace_quotes_of_no_quote (cs : List Char) (h : '"' ∉ cs) :
    replace_quotes cs = cs := by
  induction cs with
  | nil => rfl
  | cons c cs ih =>
      have h1 : c ≠ '"' := fun hc => h (by simp [hc])
      simp [replace_quotes, h1, ih (fun hc => h (List.mem_cons_of_mem c hc))]

theorem escape_quotes_append (s t : String) :
    escape_quotes (s ++ t) = escape_quotes s ++ escape_quotes t := by
  apply String.ext
  simp [escape_quotes, String.data_append, replace_quotes_append]

/-- Claim C4: for a record holding an integer, a string and a list of
integers, the serializer emits one block with, per key in record
order, an unquoted numeric literal, a quoted string in which exactly
the embedded double quotes are backslash-escaped, and an inline
bracketed list; in particular the record with id 5, name `a"b` and
tags [1, 2, 3] produces the block lines `id=5,`, `name="a\"b",` and
`tags={1, 2, 3},`. -/
theorem C4_serializer_record :
    (∀ (n : Int) (s : String) (l : List Int) (k1 k2 k3 : String),
        lua_formatter [[(k1, PValue.vInt n), (k2, PValue.vStr s),
            (k3, PValue.vList (l.map PValue.vInt))]]
          = some ("local data = \x7b\n\t\x7b\n"
              ++ "\t\t" ++ k1 ++ "=" ++ toString n ++ ",\n"
              ++ "\t\t" ++ k2 ++ "=\"" ++ escape_quotes s ++ "\",\n"
              ++ "\t\t" ++ k3 ++ "=\x7b"
              ++ String.intercalate ", " (l.map toString) ++ "\x7d,\n"
              ++ "\t\x7d,\n\n\x7d\nreturn data"))
    ∧ lua_formatter [[("id", PValue.vInt 5), ("name", PValue.vStr "a\"b"),
          ("tags", PValue.vList [PValue.vInt 1, PValue.vInt 2, PValue.vInt 3])]]
        = some "local data = \x7b\n\t\x7b\n\t\tid=5,\n\t\tname=\"a\\\"b\",\n\t\ttags=\x7b1, 2, 3\x7d,\n\t\x7d,\n\n\x7d\nreturn data"
    ∧ (∀ s t : String, escape_quotes (s ++ "\"" ++ t)
        = escape_quotes s ++ "\\\"" ++ escape_quotes t)
    ∧ (∀ s : String, '"' ∉ s.data → escape_quotes s = s) := by
  refine ⟨?_, rfl, ?_, ?_⟩
  · intro n s l k1 k2 k3
    apply congrArg some
    apply String.ext
    simp [lua_formatter, lua_record, lua_entry, optionMapList, String.join,
      String.data_append, List.append_assoc, List.map_map, Function.comp_def,
      lua_list_elem]
  · intro s t
    rw [escape_quotes_append, escape_quotes_append]
    rfl
  · intro s h
    apply String.ext
    simp [escape_quotes, replace_quotes_of_no_quote s.data h]

/-- Claim C4, witness: the quote-free string is left unchanged and a
concrete embedded quote is escaped. -/
theorem C4_serializer_record_witness :
    escape_quotes "ab" = "ab"
    ∧ escape_quotes ("a" ++ "\"" ++ "b")
        = escape_quotes "a" ++ "\\\"" ++ escape_quotes "b" :=
  ⟨C4_serializer_record.2.2.2 "ab" (by decide),
   C4_serializer_record.2.2.1 "a" "b"⟩

/-- Claim C7, counterexample: a float is numeric, but as a list element
the serializer quotes it (`isinstance(v, int)` alone selects the
unquoted form), so the claimed unquoted rendering is wrong. -/
theorem C7_counterexample :
    lua_entry "k" (PValue.vList [PValue.vFloat "1.5"])
      = some "\t\tk=\x7b\"1.5\"\x7d,\n"
    ∧ some "\t\tk=\x7b\"1.5\"\x7d,\n"
        ≠ some "\t\tk=\x7b1.5\x7d,\n" := by
  exact ⟨rfl, by decide⟩

/-- Claim C7 (amended): a sequence value is emitted as an inline
bracketed list joined by comma-space; each element is dispatched on
`isinstance(v, int)` alone, so integer elements are unquoted while
every other element — floats included — is double-quoted verbatim,
with no escaping applied. -/
theorem C7_list_elements (key : String) (l : List PValue) :
    lua_entry key (PValue.vList l)
      = some ("\t\t" ++ key ++ "=\x7b"
          ++ String.intercalate ", " (l.map lua_list_elem) ++ "\x7d,\n")
    ∧ (∀ n : Int, lua_list_elem (PValue.vInt n) = toString n)
    ∧ (∀ r : String, lua_list_elem (PValue.vFloat r) = "\"" ++ r ++ "\"")
    ∧ (∀ s : String, lua_list_elem (PValue.vStr s) = "\"" ++ s ++ "\"") :=
  ⟨rfl, fun _ => rfl, fun _ => rfl, fun _ => rfl⟩
theorem mem_keysOf_of_lookupA {α : Type} {d : AList α} {k : String} {v : α}
    (h : lookupA d k = some v) : k ∈ keysOf d := by
  by_contra hc
  rw [(lookupA_eq_none_iff d k).mpr hc] at h
  cases h

/-- Claim C6, counterexample: in the quest-reward merge step the append
is unconditional, so a subsequent record lacking the accumulator field
(the row has no linked character) raises instead of leaving the
representative unchanged. -/
theorem C6_counterexample :
    mergeStepQuest
        [("k", [("quest", PValue.vStr "Q"), ("classes", PValue.vStr "B")])]
        "k" [("quest", PValue.vStr "Q")] none
      = none
    ∧ (none : Option (AList Rec))
        ≠ some [("k", [("quest", PValue.vStr "Q"),
            ("classes", PValue.vStr "B")])] :=
  ⟨rfl, by simp⟩

/-- Claim C6 (amended): in the vendor-reward merge step the first
record for a key is appended verbatim; a subsequent record lacking the
`classes` field leaves the mapping unchanged; one carrying a string
`classes` value, when the representative also holds one, only replaces
the representative's `classes` field by the separator-extended value —
every other field keeps its value and the key sequence is unchanged.
In the quest-reward merge step, a subsequent record without a linked
character instead raises. -/
theorem C6_merge_step (compress : AList Rec) (key : String) (data rep : Rec)
    (s t : String) :
    (lookupA compress key = none →
        mergeStepVendor compress key data = some (compress ++ [(key, data)]))
    ∧ (lookupA compress key = some rep → lookupA data "classes" = none →
        mergeStepVendor compress key data = some compress)
    ∧ (lookupA compress key = some rep →
        lookupA data "classes" = some (PValue.vStr s) →
        lookupA rep "classes" = some (PValue.vStr t) →
        mergeStepVendor compress key data
          = some (odInsert compress key
              (odInsert rep "classes" (PValue.vStr (t ++ UNIT_SEP ++ s))))
        ∧ (∀ f, f ≠ "classes" →
            lookupA (odInsert rep "classes"
                (PValue.vStr (t ++ UNIT_SEP ++ s))) f
              = lookupA rep f)
        ∧ lookupA (odInsert rep "classes" (PValue.vStr (t ++ UNIT_SEP ++ s)))
            "classes" = some (PValue.vStr (t ++ UNIT_SEP ++ s))
        ∧ keysOf (odInsert rep "classes" (PValue.vStr (t ++ UNIT_SEP ++ s)))
            = keysOf rep)
    ∧ (lookupA compress key = some rep →
        mergeStepQuest compress key data none = none) := by
  refine ⟨?_, ?_, ?_, ?_⟩
  · intro h
    simp [mergeStepVendor, h, odInsert_of_lookupA_none compress key data h]
  · intro h1 h2
    simp [mergeStepVendor, h1, h2]
  · intro h1 h2 h3
    refine ⟨by simp [mergeStepVendor, h1, h2, h3], ?_, ?_, ?_⟩
    · intro f hf
      exact lookupA_odInsert_ne rep _ hf
    · exact lookupA_odInsert_self rep "classes" _
    · exact keysOf_odInsert_of_mem rep "classes" _ (mem_keysOf_of_lookupA h3)
  · intro h1
    simp [mergeStepQuest, h1]

/-- Claim C6 (amended), witness: a first record is appended verbatim
and a second one extends the `classes` accumulator. -/
theorem C6_merge_step_witness :
    mergeStepVendor [] "k" [("quest", PValue.vStr "Q")]
        = some ([] ++ [("k", [("quest", PValue.vStr "Q")])])
    ∧ mergeStepVendor [("k", [("classes", PValue.vStr "B")])] "k"
        [("classes", PValue.vStr "A")]
        = some (odInsert [("k", [("classes", PValue.vStr "B")])] "k"
            (odInsert [("classes", PValue.vStr "B")] "classes"
              (PValue.vStr ("B" ++ UNIT_SEP ++ "A")))) :=
  ⟨(C6_merge_step [] "k" [("quest", PValue.vStr "Q")] [] "" "").1 rfl,
   ((C6_merge_step [("k", [("classes", PValue.vStr "B")])] "k"
        [("classes", PValue.vStr "A")] [("classes", PValue.vStr "B")]
        "A" "B").2.2.1 rfl rfl rfl).1⟩
theorem pairwise_trivial {β : Type} (l : List β) :
    List.Pairwise (fun _ _ => True) l := by
  induction l with
  | nil => constructor
  | cons x xs ih => exact List.Pairwise.cons (fun _ _ => trivial) ih

theorem sortBy_pairwise {β α : Type} {lt : α → α → Bool} {f : β → α}
    (hS : IsStrictLinear lt) (l : List β) :
    List.Pairwise (fun a b => lt (f b) (f a) = false) (sortBy lt f l) := by
  have h := pairwise_sortBy lt f hS (pairwise_trivial l)
  refine h.imp ?_
  intro a b hab
  rcases hab with hab | ⟨hab, _⟩
  · exact hS.asym hab
  · rw [hab]
    exact hS.irrefl _

theorem sorted_sortBy_id (l : List String) :
    List.Sorted (fun a b : String => strLt b a = false) (sortBy strLt id l) :=
  sortBy_pairwise strLt_isStrictLinear l

theorem sortBy_id_eq_of_toFinset_eq {l1 l2 : List String}
    (h : l1.toFinset = l2.toFinset) :
    sortBy strLt id l1.dedup = sortBy strLt id l2.dedup := by
  have hperm : List.Perm l1.dedup l2.dedup :=
    List.toFinset_eq_iff_perm_dedup.mp h
  have hp : List.Perm (sortBy strLt id l1.dedup) (sortBy strLt id l2.dedup) :=
    ((perm_sortBy strLt id l1.dedup).trans hperm).trans
      (perm_sortBy strLt id l2.dedup).symm
  haveI : IsAntisymm String (fun a b => strLt b a = false) :=
    ⟨fun a b h1 h2 => strLt_isStrictLinear.conn a b h2 h1⟩
  exact List.eq_of_perm_of_sorted hp (sorted_sortBy_id _) (sorted_sortBy_id _)

/-- Claim C1, counterexample: the drop condition of the vendor-reward
post-processing is a superset test, not an equality test.  With class
universe `["A"]`, a record whose accumulated value splits into the
two-name set holding A and B is dropped, although that set does not
equal the universe set — the claim instead requires the sorted
rewritten join. -/
theorem C1_counterexample :
    vendor_post_record ["A"]
        [("quest", PValue.vStr "Q"),
         ("classes", PValue.vStr ("A" ++ UNIT_SEP ++ "B"))]
      = some [("quest", PValue.vStr "Q")]
    ∧ (py_split ("A" ++ UNIT_SEP ++ "B") UNIT_SEP_CHAR).toFinset
        ≠ (["A"] : List String).toFinset :=
  ⟨rfl, by decide⟩

/-- Claim C1 (amended): the `classes` field of a merged vendor-reward
record is dropped exactly when the split set of its accumulated value
contains every name of the known class universe (a superset test);
otherwise it is rewritten to the separator-join of the sorted set of
distinct contributions, which depends only on the set of
contributions and not on their arrival order.  In particular two
records with the same identity key and `classes` values B and A merge
and post-process to the sorted join of A and B. -/
theorem C1_vendor_post (classes_set : List String) (v : Rec) (s : String)
    (h : lookupA v "classes" = some (PValue.vStr s)) :
    ((∀ c ∈ classes_set, c ∈ py_split s UNIT_SEP_CHAR) →
        vendor_post_record classes_set v = some (removeA v "classes"))
    ∧ (¬ (∀ c ∈ classes_set, c ∈ py_split s UNIT_SEP_CHAR) →
        vendor_post_record classes_set v
          = some (odInsert v "classes"
              (PValue.vStr (String.intercalate UNIT_SEP
                (sortBy strLt id (py_split s UNIT_SEP_CHAR).dedup)))))
    ∧ (∀ s2 : String,
        (py_split s UNIT_SEP_CHAR).toFinset
            = (py_split s2 UNIT_SEP_CHAR).toFinset →
        sortBy strLt id (py_split s UNIT_SEP_CHAR).dedup
          = sortBy strLt id (py_split s2 UNIT_SEP_CHAR).dedup)
    ∧ (do
        let c ← mergeStepVendor [("k", [("classes", PValue.vStr "B")])] "k"
            [("classes", PValue.vStr "A")]
        vendor_post ["A", "B", "C"] c)
        = some [("k", [("classes",
            PValue.vStr ("A" ++ UNIT_SEP ++ "B"))])] := by
  refine ⟨?_, ?_, ?_, rfl⟩
  · intro hall
    have hc : classes_set.all
        (fun c => ((py_split s UNIT_SEP_CHAR).dedup).contains c) = true := by
      simp only [List.all_eq_true, List.elem_eq_mem, List.mem_dedup,
        decide_eq_true_eq]
      exact hall
    simp only [vendor_post_record, h]
    rw [hc]
    simp
  · intro hall
    have hc : classes_set.all
        (fun c => ((py_split s UNIT_SEP_CHAR).dedup).contains c) = false := by
      rw [Bool.eq_false_iff]
      intro hcc
      apply hall
      simpa only [List.all_eq_true, List.elem_eq_mem, List.mem_dedup,
        decide_eq_true_eq] using hcc
    simp only [vendor_post_record, h]
    rw [hc]
    simp
  · intro s2 hset
    exact sortBy_id_eq_of_toFinset_eq hset

/-- Claim C1 (amended), witness: with universe A, B, C the accumulated
value B then A is rewritten to the sorted join of A and B, and with
universe A, B the same value is dropped. -/
theorem C1_vendor_post_witness :
    vendor_post_record ["A", "B"]
        [("classes", PValue.vStr ("B" ++ UNIT_SEP ++ "A"))]
      = some (removeA [("classes", PValue.vStr ("B" ++ UNIT_SEP ++ "A"))]
          "classes")
    ∧ vendor_post_record ["A", "B", "C"]
        [("classes", PValue.vStr ("B" ++ UNIT_SEP ++ "A"))]
      = some (odInsert [("classes", PValue.vStr ("B" ++ UNIT_SEP ++ "A"))]
          "classes"
          (PValue.vStr (String.intercalate UNIT_SEP
            (sortBy strLt id
              (py_split ("B" ++ UNIT_SEP ++ "A") UNIT_SEP_CHAR).dedup)))) :=
  ⟨(C1_vendor_post ["A", "B"]
      [("classes", PValue.vStr ("B" ++ UNIT_SEP ++ "A"))]
      ("B" ++ UNIT_SEP ++ "A") rfl).1 (by decide),
   (C1_vendor_post ["A", "B", "C"]
      [("classes", PValue.vStr ("B" ++ UNIT_SEP ++ "A"))]
      ("B" ++ UNIT_SEP ++ "A") rfl).2.1 (by decide)⟩
/-- Claim C3: the three successive stable sorts of `_write_lua` (by
reward, then quest id, then act) sort any list of records carrying the
three fields lexicographically by (act, quest id, reward); records
with equal key triples keep their relative input order (the filter at
any fixed triple is unchanged); and the three example records come out
in the claimed order. -/
theorem C3_write_lua_order (outdata : List Rec)
    (hw : ∀ r ∈ outdata, SortWellTyped r) :
    List.Pairwise lexLE (write_lua_sort outdata)
    ∧ (∀ t : Int × String × String,
        (write_lua_sort outdata).filter (fun r => decide (keyTriple r = t))
          = outdata.filter (fun r => decide (keyTriple r = t)))
    ∧ write_lua_sort
        [[("act", PValue.vInt 2), ("quest_id", PValue.vStr "q1"),
          ("reward", PValue.vStr "x")],
         [("act", PValue.vInt 1), ("quest_id", PValue.vStr "q2"),
          ("reward", PValue.vStr "y")],
         [("act", PValue.vInt 1), ("quest_id", PValue.vStr "q1"),
          ("reward", PValue.vStr "z")]]
      = [[("act", PValue.vInt 1), ("quest_id", PValue.vStr "q1"),
          ("reward", PValue.vStr "z")],
         [("act", PValue.vInt 1), ("quest_id", PValue.vStr "q2"),
          ("reward", PValue.vStr "y")],
         [("act", PValue.vInt 2), ("quest_id", PValue.vStr "q1"),
          ("reward", PValue.vStr "x")]] := by
  refine ⟨?_, ?_, rfl⟩
  · have h0 := pairwise_trivial outdata
    have h1 := pairwise_sortBy strLt keyReward strLt_isStrictLinear h0
    have h2 := pairwise_sortBy strLt keyQuestId strLt_isStrictLinear h1
    have h3 := pairwise_sortBy intLt keyAct intLt_isStrictLinear h2
    refine h3.imp ?_
    intro a b hab
    rcases hab with hab | ⟨hab, hq⟩
    · exact Or.inl hab
    · refine Or.inr ⟨hab, ?_⟩
      rcases hq with hq | ⟨hq, hr⟩
      · exact Or.inl hq
      · refine Or.inr ⟨hq, ?_⟩
        rcases hr with hr | ⟨hr, _⟩
        · exact strLt_isStrictLinear.asym hr
        · rw [hr]
          exact strLt_isStrictLinear.irrefl _
  · intro t
    have ha : ∀ z : Rec,
        (fun r => decide (keyTriple r = t)) z = true → keyAct z = t.1 := by
      intro z hz
      have hzt := of_decide_eq_true hz
      exact congrArg Prod.fst hzt
    have hq : ∀ z : Rec,
        (fun r => decide (keyTriple r = t)) z = true → keyQuestId z = t.2.1 := by
      intro z hz
      have hzt := of_decide_eq_true hz
      exact congrArg (fun p => p.2.1) hzt
    have hr : ∀ z : Rec,
        (fun r => decide (keyTriple r = t)) z = true → keyReward z = t.2.2 := by
      intro z hz
      have hzt := of_decide_eq_true hz
      exact congrArg (fun p => p.2.2) hzt
    rw [write_lua_sort,
      filter_sortBy intLt_isStrictLinear _ t.1 ha,
      filter_sortBy strLt_isStrictLinear _ t.2.1 hq,
      filter_sortBy strLt_isStrictLinear _ t.2.2 hr]

/-- Claim C3, witness: the example instance with every record carrying
the three typed sort fields. -/
theorem C3_write_lua_order_witness :
    write_lua_sort
        [[("act", PValue.vInt 2), ("quest_id", PValue.vStr "q1"),
          ("reward", PValue.vStr "x")],
         [("act", PValue.vInt 1), ("quest_id", PValue.vStr "q2"),
          ("reward", PValue.vStr "y")],
         [("act", PValue.vInt 1), ("quest_id", PValue.vStr "q1"),
          ("reward", PValue.vStr "z")]]
      = [[("act", PValue.vInt 1), ("quest_id", PValue.vStr "q1"),
          ("reward", PValue.vStr "z")],
         [("act", PValue.vInt 1), ("quest_id", PValue.vStr "q2"),
          ("reward", PValue.vStr "y")],
         [("act", PValue.vInt 2), ("quest_id", PValue.vStr "q1"),
          ("reward", PValue.vStr "x")]] :=
  (C3_write_lua_order
      [[("act", PValue.vInt 2), ("quest_id", PValue.vStr "q1"),
        ("reward", PValue.vStr "x")],
       [("act", PValue.vInt 1), ("quest_id", PValue.vStr "q2"),
        ("reward", PValue.vStr "y")],
       [("act", PValue.vInt 1), ("quest_id", PValue.vStr "q1"),
        ("reward", PValue.vStr "z")]]
      (by
        intro r hr
        simp only [List.mem_cons, List.not_mem_nil, or_false] at hr
        rcases hr with rfl | rfl | rfl
        · exact ⟨⟨2, rfl⟩, ⟨"q1", rfl⟩, ⟨"x", rfl⟩⟩
        · exact ⟨⟨1, rfl⟩, ⟨"q2", rfl⟩, ⟨"y", rfl⟩⟩
        · exact ⟨⟨1, rfl⟩, ⟨"q1", rfl⟩, ⟨"z", rfl⟩⟩)).2.2
/-- Claim C8: a vendor-reward row whose identity inputs are missing —
no quest is associated with its quest state while the state is not the
hardcoded 385 fallback, or its item list is empty — is reported as a
warning and contributes nothing to the merged output, and the loop
goes on to process the remaining rows instead of aborting. -/
theorem C8_vendor_skip (qstates : List QuestStateRow) (fallback : VQuest)
    (rows : List VendorRow) (st : VendorState) (row : VendorRow) :
    ((qstates.filter (fun r => r.states.contains row.questState)).map
          (fun r => r.quest) = [] →
      row.questState ≠ 385 →
      vendorStep qstates fallback st row
        = some (st.1, st.2 ++ [.noQuest row.rowid row.questState row.npcName
            (row.items.map (fun i => i.name))])
      ∧ vendorLoop qstates fallback (row :: rows) st
        = vendorLoop qstates fallback rows
            (st.1, st.2 ++ [.noQuest row.rowid row.questState row.npcName
              (row.items.map (fun i => i.name))]))
    ∧ (vendorQuests qstates fallback row.questState ≠ [] → row.items = [] →
      vendorStep qstates fallback st row
        = some (st.1, st.2 ++ [.noItems row.rowid])
      ∧ vendorLoop qstates fallback (row :: rows) st
        = vendorLoop qstates fallback rows
            (st.1, st.2 ++ [.noItems row.rowid])) := by
  constructor
  · intro h1 h2
    have hq : vendorQuests qstates fallback row.questState = [] := by
      rw [vendorQuests, h1]
      simp [h2]
    have hstep : vendorStep qstates fallback st row
        = some (st.1, st.2 ++ [.noQuest row.rowid row.questState row.npcName
            (row.items.map (fun i => i.name))]) := by
      simp [vendorStep, hq]
    refine ⟨hstep, ?_⟩
    rw [vendorLoop, hstep]
  · intro h1 h2
    have hstep : vendorStep qstates fallback st row
        = some (st.1, st.2 ++ [.noItems row.rowid]) := by
      rw [vendorStep]
      rw [if_neg (by simpa [List.isEmpty_iff] using h1)]
      rw [if_pos (by simpa [List.isEmpty_iff] using h2)]
    refine ⟨hstep, ?_⟩
    rw [vendorLoop, hstep]

/-- Claim C8, witness: with no quest-state rows at all, a row with
state 1 is skipped with a warning and the (empty) remaining row list
is still processed. -/
theorem C8_vendor_skip_witness :
    vendorStep [] ⟨"a6q4", "FFG", 6⟩ ([], [])
        ⟨0, 1, "N", [], []⟩
      = some ([], [.noQuest 0 1 "N" []])
    ∧ vendorLoop [] ⟨"a6q4", "FFG", 6⟩ [⟨0, 1, "N", [], []⟩] ([], [])
      = vendorLoop [] ⟨"a6q4", "FFG", 6⟩ [] ([], [.noQuest 0 1 "N" []]) :=
  (C8_vendor_skip [] ⟨"a6q4", "FFG", 6⟩ [] ([], []) ⟨0, 1, "N", [], []⟩).1
    rfl (by decide)

end PyPoELua
